import Mathlib

set_option autoImplicit false

/-!
# A verification model of the netCBS query-to-execution pipeline

netCBS turns a declarative path string such as
`"[Income] -> Family[301] -> Schoolmates[all] -> sample"` into a chain of
joins over relationship tables followed by an aggregation, returning one
output row per sample member.  This file gives a shallow embedding of that
pipeline — codebook, query parser/validator, path resolver, join engine,
aggregation and result reconciliation — and proves the documented
properties about it.

The repository ships the package's documentation (README, tutorial,
executed notebook) but the Python module itself is not present here, so the
operational definitions below are modelled from the specification and from
the behaviour recorded in the documentation; the codebook contents are the
ones printed by the executed tutorial notebook.
-/

namespace NetCBS

/-- A column / variable / function name, as a list of characters. -/
abbrev Name := List Char

/-- The five fixed relationship contexts of the CBS POPNET data. -/
inductive Context where
  | Family
  | Colleagues
  | Neighbors
  | Schoolmates
  | Housemates
deriving DecidableEq

/-- The codebook: valid relationship codes per context.  Values are the ones
printed by the executed tutorial notebook (`net.context2types`). -/
def context2types : Context → List Nat
  | .Family => [301, 302, 303, 304, 305, 306, 307, 308, 309, 310, 311, 312,
                313, 314, 315, 316, 317, 318, 319, 320, 321, 322]
  | .Colleagues => [201]
  | .Neighbors => [101, 102]
  | .Schoolmates => [501, 502, 503, 504, 505, 506]
  | .Housemates => [401, 402]

/-! ## Duplicate removal

Both input frames are deduplicated before any join, and every join stage
deduplicates the (ego, alter) pairs it produces.  `dedupF` keeps the first
occurrence of each element, preserving the original order. -/

/-- Remove elements already seen; keeps first occurrences in order. -/
def dedupAux {α : Type} [DecidableEq α] (seen : List α) : List α → List α
  | [] => []
  | x :: xs => if x ∈ seen then dedupAux seen xs else x :: dedupAux (x :: seen) xs

/-- Order-preserving duplicate removal (first occurrence wins). -/
def dedupF {α : Type} [DecidableEq α] (l : List α) : List α := dedupAux [] l

theorem mem_dedupAux {α : Type} [DecidableEq α] (a : α) :
    ∀ (l seen : List α), a ∈ dedupAux seen l ↔ a ∈ l ∧ a ∉ seen := by
  intro l
  induction l with
  | nil => intro seen; simp [dedupAux]
  | cons x xs ih =>
    intro seen
    by_cases hx : x ∈ seen
    · simp only [dedupAux, if_pos hx, ih, List.mem_cons]
      constructor
      · rintro ⟨h1, h2⟩; exact ⟨Or.inr h1, h2⟩
      · rintro ⟨h1 | h1, h2⟩
        · exact absurd hx (h1 ▸ h2)
        · exact ⟨h1, h2⟩
    · simp only [dedupAux, if_neg hx]
      constructor
      · intro h
        rcases List.mem_cons.1 h with rfl | h2
        · exact ⟨List.mem_cons_self a xs, hx⟩
        · obtain ⟨h3, h4⟩ := (ih (x :: seen)).1 h2
          exact ⟨List.mem_cons_of_mem _ h3, fun hs => h4 (List.mem_cons_of_mem _ hs)⟩
      · rintro ⟨h1, h2⟩
        rcases List.mem_cons.1 h1 with rfl | h3
        · exact List.mem_cons_self a _
        · by_cases hax : a = x
          · exact hax ▸ List.mem_cons_self a _
          · refine List.mem_cons_of_mem _ ((ih (x :: seen)).2 ⟨h3, fun hc => ?_⟩)
            rcases List.mem_cons.1 hc with h5 | h5
            · exact hax h5
            · exact h2 h5

theorem mem_dedupF {α : Type} [DecidableEq α] (a : α) (l : List α) :
    a ∈ dedupF l ↔ a ∈ l := by
  simp [dedupF, mem_dedupAux]

theorem nodup_dedupAux {α : Type} [DecidableEq α] :
    ∀ (l seen : List α), (dedupAux seen l).Nodup := by
  intro l
  induction l with
  | nil => intro seen; simp [dedupAux]
  | cons x xs ih =>
    intro seen
    by_cases hx : x ∈ seen
    · simpa [dedupAux, if_pos hx] using ih seen
    · simp only [dedupAux, if_neg hx, List.nodup_cons]
      refine ⟨fun hmem => ?_, ih (x :: seen)⟩
      exact ((mem_dedupAux x xs (x :: seen)).1 hmem).2 (List.mem_cons_self x seen)

theorem nodup_dedupF {α : Type} [DecidableEq α] (l : List α) : (dedupF l).Nodup :=
  nodup_dedupAux l []

theorem dedupAux_eq_self {α : Type} [DecidableEq α] :
    ∀ (l seen : List α), l.Nodup → (∀ x ∈ l, x ∉ seen) → dedupAux seen l = l := by
  intro l
  induction l with
  | nil => intro seen _ _; rfl
  | cons x xs ih =>
    intro seen hnd hout
    have hx : x ∉ seen := hout x (List.mem_cons_self x xs)
    simp only [dedupAux, if_neg hx]
    congr 1
    refine ih (x :: seen) (List.Nodup.of_cons hnd) ?_
    intro y hy
    simp only [List.mem_cons]
    rintro (rfl | hsy)
    · exact (List.nodup_cons.1 hnd).1 hy
    · exact hout y (List.mem_cons_of_mem _ hy) hsy

theorem dedupF_eq_self {α : Type} [DecidableEq α] (l : List α) (h : l.Nodup) :
    dedupF l = l :=
  dedupAux_eq_self l [] h (by simp)

theorem dedupF_idem {α : Type} [DecidableEq α] (l : List α) :
    dedupF (dedupF l) = dedupF l :=
  dedupF_eq_self _ (nodup_dedupF l)

theorem dedupAux_length_le {α : Type} [DecidableEq α] :
    ∀ (l seen : List α), (dedupAux seen l).length ≤ l.length := by
  intro l
  induction l with
  | nil => intro seen; simp [dedupAux]
  | cons x xs ih =>
    intro seen
    by_cases hx : x ∈ seen
    · simp only [dedupAux, if_pos hx]
      exact le_trans (ih seen) (Nat.le_succ _)
    · simpa [dedupAux, if_neg hx, Nat.succ_le_succ_iff] using ih (x :: seen)

theorem dedupAux_length_lt_of_seen {α : Type} [DecidableEq α] :
    ∀ (l seen : List α), (∃ y ∈ l, y ∈ seen) → (dedupAux seen l).length < l.length := by
  intro l
  induction l with
  | nil => rintro seen ⟨y, hy, _⟩; cases hy
  | cons x xs ih =>
    rintro seen ⟨y, hy, hys⟩
    by_cases hx : x ∈ seen
    · simp only [dedupAux, if_pos hx, List.length_cons]
      exact Nat.lt_succ_of_le (dedupAux_length_le xs seen)
    · have hyx : y ∈ xs := by
        rcases List.mem_cons.1 hy with rfl | h
        · exact absurd hys hx
        · exact h
      simp only [dedupAux, if_neg hx, List.length_cons]
      exact Nat.succ_lt_succ (ih (x :: seen) ⟨y, hyx, List.mem_cons_of_mem _ hys⟩)

theorem dedupAux_length_lt_of_not_nodup {α : Type} [DecidableEq α] :
    ∀ (l seen : List α), ¬ l.Nodup → (dedupAux seen l).length < l.length := by
  intro l
  induction l with
  | nil => intro seen h; exact absurd List.nodup_nil h
  | cons x xs ih =>
    intro seen h
    rw [List.nodup_cons] at h
    push_neg at h
    by_cases hx : x ∈ seen
    · simp only [dedupAux, if_pos hx, List.length_cons]
      exact Nat.lt_succ_of_le (dedupAux_length_le xs seen)
    · simp only [dedupAux, if_neg hx, List.length_cons]
      by_cases hxx : x ∈ xs
      · exact Nat.succ_lt_succ
          (dedupAux_length_lt_of_seen xs (x :: seen) ⟨x, hxx, List.mem_cons_self x seen⟩)
      · exact Nat.succ_lt_succ (ih (x :: seen) (h hxx))

theorem dedupF_length_lt_of_not_nodup {α : Type} [DecidableEq α] (l : List α)
    (h : ¬ l.Nodup) : (dedupF l).length < l.length :=
  dedupAux_length_lt_of_not_nodup l [] h

/-! ## Query tokenizer

Modelled from the spec: the query string is split on the arrow separator
`->` into segments, which are then trimmed of surrounding spaces. -/

/-- Split a character list at every occurrence of the two-character arrow
`->`.  Always returns at least one (possibly empty) segment. -/
def splitArrow : List Char → List (List Char)
  | [] => [[]]
  | [c] => [[c]]
  | c :: d :: rest =>
    if c = '-' ∧ d = '>' then [] :: splitArrow rest
    else
      match splitArrow (d :: rest) with
      | [] => [[c]]
      | s :: ss => (c :: s) :: ss

/-- Split a character list at every occurrence of a separator character. -/
def splitOnChar (sep : Char) : List Char → List (List Char)
  | [] => [[]]
  | c :: rest =>
    if c = sep then [] :: splitOnChar sep rest
    else
      match splitOnChar sep rest with
      | [] => [[c]]
      | s :: ss => (c :: s) :: ss

/-- Drop trailing space characters. -/
def dropTrail : List Char → List Char
  | [] => []
  | c :: rest =>
    match dropTrail rest with
    | [] => if c = ' ' then [] else [c]
    | r => c :: r

/-- Trim leading and trailing spaces. -/
def trimC (s : Name) : Name := dropTrail (s.dropWhile (fun c => c = ' '))

/-- Lower-case every character (ASCII). -/
def toLowerC (s : Name) : Name := s.map Char.toLower

/-- The trimmed arrow-separated segments of a query string. -/
def segsOf (q : Name) : List Name := (splitArrow q).map trimC

/-- Numeric value of a decimal digit character. -/
def digitVal? (c : Char) : Option Nat :=
  if '0' ≤ c ∧ c ≤ '9' then some (c.toNat - '0'.toNat) else none

def parseNatAux : Nat → List Char → Option Nat
  | acc, [] => some acc
  | acc, c :: rest =>
    match digitVal? c with
    | none => none
    | some d => parseNatAux (acc * 10 + d) rest

/-- Parse a non-empty all-digit character list as a natural number. -/
def parseNat? : Name → Option Nat
  | [] => none
  | s => parseNatAux 0 s

/-- Split a list into its leading part and its last element. -/
def unsnoc {α : Type} : List α → Option (List α × α)
  | [] => none
  | [c] => some ([], c)
  | c :: rest =>
    match unsnoc rest with
    | none => none
    | some (front, lastc) => some (c :: front, lastc)

/-! ## Query data model (modelled from the spec) -/

/-- A relationship-code selector: `[all]` or an explicit code list. -/
inductive CodeSel where
  | all
  | codes (cs : List Nat)
deriving DecidableEq

/-- One traversal hop: a context plus a code selector. -/
structure Hop where
  ctx : Context
  sel : CodeSel
deriving DecidableEq

/-- A validated query plan: aggregation variables and the ego→alter ordered
hop chain. -/
structure Plan where
  vars : List Name
  hops : List Hop
deriving DecidableEq

/-- The error kinds of the pipeline. -/
inductive NetErr where
  | malformedQuery
  | unknownContext (s : Name)
  | invalidRelationshipCode (ctx : Context) (code : Nat)
  | schemaMissing (col : Name)
  | unsupportedAggregationFunction (f : Name)
  | relationFileNotFound (ctx : Context) (year : Nat)
deriving DecidableEq

/-- Recognize one of the five fixed context names (exact spelling). -/
def parseContext? (s : Name) : Option Context :=
  if s = "Family".data then some .Family
  else if s = "Colleagues".data then some .Colleagues
  else if s = "Neighbors".data then some .Neighbors
  else if s = "Schoolmates".data then some .Schoolmates
  else if s = "Housemates".data then some .Housemates
  else none

/-- Check that every explicit code belongs to the codebook set of its
context; the first offending code is reported. -/
def checkCodes (ctx : Context) (cs : List Nat) : Except NetErr (List Nat) :=
  match cs.find? (fun c => decide (c ∉ context2types ctx)) with
  | some c => .error (.invalidRelationshipCode ctx c)
  | none => .ok cs

/-- Map a fallible function over a list, stopping at the first error. -/
def mapEx {α β : Type} (f : α → Except NetErr β) : List α → Except NetErr (List β)
  | [] => .ok []
  | x :: xs =>
    match f x with
    | .error e => .error e
    | .ok y =>
      match mapEx f xs with
      | .error e => .error e
      | .ok ys => .ok (y :: ys)

/-- Split a hop segment `Name[...]` into the context name and the bracket
contents; `none` when the bracket structure is malformed. -/
def bracketSplit (s : Name) : Option (Name × Name) :=
  match s.dropWhile (fun c => !(c == '[')) with
  | '[' :: inner0 =>
    match unsnoc inner0 with
    | some (inner, ']') => some (s.takeWhile (fun c => !(c == '[')), inner)
    | _ => none
  | _ => none

/-- Parse the bracket contents of a hop: `all` or an explicit code list,
checked against the codebook for the hop's context. -/
def parseCodes (ctx : Context) (inner : Name) : Except NetErr CodeSel :=
  if trimC inner = "all".data then .ok .all
  else
    match mapEx (fun p => (parseNat? p).elim (.error .malformedQuery) .ok)
        ((splitOnChar ',' inner).map trimC) with
    | .error _ => .error .malformedQuery
    | .ok cs =>
      match checkCodes ctx cs with
      | .error e => .error e
      | .ok cs2 => .ok (.codes cs2)

/-- Parse a hop segment such as `Family[301,303]` or `Schoolmates[all]`. -/
def parseHop (s : Name) : Except NetErr Hop :=
  match bracketSplit s with
  | none => .error .malformedQuery
  | some (nm, inner) =>
    match parseContext? nm with
    | none => .error (.unknownContext nm)
    | some ctx =>
      match parseCodes ctx inner with
      | .error e => .error e
      | .ok sel => .ok ⟨ctx, sel⟩

/-- Parse the aggregation-variable segment `[Var1, Var2, ...]`. -/
def parseAggList : Name → Except NetErr (List Name)
  | c :: rest =>
    if c = '[' then
      match unsnoc rest with
      | some (inner, lastc) =>
        if lastc = ']' then
          if ((splitOnChar ',' inner).map trimC).any (fun n => n.isEmpty) then
            .error .malformedQuery
          else .ok ((splitOnChar ',' inner).map trimC)
        else .error .malformedQuery
      | none => .error .malformedQuery
    else .error .malformedQuery
  | [] => .error .malformedQuery

/-- The terminal anchor token, matched case-insensitively. -/
def isAnchor (s : Name) : Bool := decide (toLowerC s = "sample".data)

/-- Parse a normalized (variables-first) segment sequence into a plan. -/
def parseCore : List Name → Except NetErr Plan
  | [] => .error .malformedQuery
  | a0 :: rest =>
    match rest.getLast? with
    | none => .error .malformedQuery
    | some anch =>
      if isAnchor anch then
        match rest.dropLast with
        | [] => .error .malformedQuery
        | h0 :: hs =>
          match parseAggList a0 with
          | .error e => .error e
          | .ok vars =>
            match mapEx parseHop (h0 :: hs) with
            | .error e => .error e
            | .ok hops => .ok ⟨vars, hops⟩
      else .error .malformedQuery

/-- Parse a segment sequence in either surface direction: a sequence whose
first segment is the anchor is reversed to the canonical variables-first
order before parsing. -/
def parseSegs (segs : List Name) : Except NetErr Plan :=
  match segs with
  | s :: _ => if isAnchor s then parseCore segs.reverse else parseCore segs
  | [] => parseCore []

/-! ## Tables and validation -/

/-- A dataframe: named columns and rows of rational values. -/
structure Frame where
  cols : List Name
  rows : List (List Rat)
deriving DecidableEq

/-- The person-identifier column required in both input frames. -/
def rinpersoon : Name := "RINPERSOON".data

/-- The supported aggregation function names. -/
def supportedAggFuncs : List Name :=
  ["avg".data, "mean".data, "sum".data, "count".data, "min".data, "max".data,
   "stddev_samp".data]

/-- Modelled from the spec: `validate_query` parses the query string and
checks it against the codebook and the two input schemas, entirely offline
(no file access).  Checks, in order: syntactic well-formedness (including a
non-empty variable list), context names, relationship codes, the sample
frame's identifier column, the characteristics frame's identifier column
and variables, and the aggregation function names. -/
def validate_query (q : Name) (dfSample dfAgg : Frame) (aggFuncs : List Name) :
    Except NetErr Plan :=
  match parseSegs (segsOf q) with
  | .error e => .error e
  | .ok plan =>
    if rinpersoon ∉ dfSample.cols then .error (.schemaMissing rinpersoon)
    else if rinpersoon ∉ dfAgg.cols then .error (.schemaMissing rinpersoon)
    else
      match plan.vars.find? (fun v => decide (v ∉ dfAgg.cols)) with
      | some v => .error (.schemaMissing v)
      | none =>
        match aggFuncs.find? (fun f => decide (f ∉ supportedAggFuncs)) with
        | some f => .error (.unsupportedAggregationFunction f)
        | none => .ok plan

instance {ε α : Type} [DecidableEq ε] [DecidableEq α] : DecidableEq (Except ε α) :=
  fun x y =>
    match x, y with
    | .error a, .error b =>
      if h : a = b then .isTrue (by rw [h]) else .isFalse (by simp [h])
    | .ok a, .ok b =>
      if h : a = b then .isTrue (by rw [h]) else .isFalse (by simp [h])
    | .error _, .ok _ => .isFalse (by simp)
    | .ok _, .error _ => .isFalse (by simp)

/-! ## Path resolution

Modelled from the spec: a versioned relation file is a (context, year,
version) triple; `format_path` must deterministically pick the candidate
with the maximum version for the requested (context, year), and fail with
a not-found error naming that context and year otherwise.  The edge rows
the file would physically contain are carried along so the engine can be
stated over them. -/

/-- One row of a relationship file: ego-side key, alter-side key, code. -/
structure Edge where
  src : Rat
  dst : Rat
  code : Nat
deriving DecidableEq

/-- A versioned relationship file for one (context, year). -/
structure RelFile where
  ctx : Context
  year : Nat
  version : Nat
  edges : List Edge
deriving DecidableEq

/-- Pick a file of maximum version from a candidate list. -/
def pickMax : List RelFile → Option RelFile
  | [] => none
  | f :: fs =>
    match pickMax fs with
    | none => some f
    | some g => if g.version ≤ f.version then some f else some g

/-- Modelled from the spec: resolve (context, year) to the matching file of
maximum version, or raise `RelationFileNotFoundError` naming the context
and year. -/
def format_path (ctx : Context) (year : Nat) (fs : List RelFile) :
    Except NetErr RelFile :=
  match pickMax (fs.filter (fun f => decide (f.ctx = ctx ∧ f.year = year))) with
  | some f => .ok f
  | none => .error (.relationFileNotFound ctx year)

/-- Resolve one file per hop, in hop order. -/
def resolveFiles (hops : List Hop) (year : Nat) (fs : List RelFile) :
    Except NetErr (List RelFile) :=
  mapEx (fun h => format_path h.ctx year fs) hops

/-! ## Execution engine (modelled from the spec)

Each stage inner-joins the accumulated (original-ego, current) pairs
against its relationship file on the ego-side key, filters by code
membership, projects the alter-side key, and deduplicates the resulting
(original-ego, alter) pairs.  Eager mode materializes each stage; deferred
mode composes the stages into one function applied once at the end. -/

/-- Does a code pass a hop's selector?  `[all]` admits every code that is
valid for the context. -/
def codeOk (sel : CodeSel) (ctx : Context) (c : Nat) : Bool :=
  match sel with
  | .all => decide (c ∈ context2types ctx)
  | .codes cs => decide (c ∈ cs)

/-- One join stage: the resolved file's edges plus the hop's filter. -/
structure Stage where
  ctx : Context
  sel : CodeSel
  edges : List Edge

/-- The stages of a plan, pairing each hop with its resolved file. -/
def mkStages (files : List RelFile) (hops : List Hop) : List Stage :=
  List.zipWith (fun f h => ⟨h.ctx, h.sel, f.edges⟩) files hops

/-- The raw (original-ego, alter) pairs of one stage, before
deduplication: join on the ego-side key and filter by code. -/
def rawStage (st : Stage) (pairs : List (Rat × Rat)) : List (Rat × Rat) :=
  pairs.flatMap (fun p =>
    (st.edges.filter (fun e => decide (e.src = p.2) && codeOk st.sel st.ctx e.code)).map
      (fun e => (p.1, e.dst)))

/-- One stage with its (ego, alter) deduplication. -/
def runStage (st : Stage) (pairs : List (Rat × Rat)) : List (Rat × Rat) :=
  dedupF (rawStage st pairs)

/-- Eager execution: each stage materializes before the next begins. -/
def runEager (sts : List Stage) (ini : List (Rat × Rat)) : List (Rat × Rat) :=
  sts.foldl (fun ps st => runStage st ps) ini

/-- Deferred execution: the stages are composed into a single function,
triggered once at the end. -/
def runLazy (sts : List Stage) (ini : List (Rat × Rat)) : List (Rat × Rat) :=
  (sts.foldl (fun g st => fun ps => runStage st (g ps)) (fun ps => ps)) ini

/-- Diagnostics and I/O events observable during one `transform` call. -/
inductive Event where
  | droppingDuplicates
  | fileOpened (ctx : Context) (year : Nat)
  | joinCardinalityNotice
deriving DecidableEq

/-- The warning-class diagnostics of the join chain: one notice per stage
whose deduplication collapsed at least one duplicate pair. -/
def stageWarnings : List Stage → List (Rat × Rat) → List Event
  | [], _ => []
  | st :: sts, ps =>
    let raw := rawStage st ps
    let ded := dedupF raw
    (if ded.length < raw.length then [.joinCardinalityNotice] else []) ++
      stageWarnings sts ded

/-! ## Aggregation and reconciliation (modelled from the spec) -/

/-- The identifier of a row: the value in its `RINPERSOON` column. -/
def rowId (fr : Frame) (row : List Rat) : Option Rat :=
  (fr.cols.findIdx? (fun c => decide (c = rinpersoon))).bind (fun i => row.get? i)

/-- The initial (ego, ego) pair set: the sample's identifier column. -/
def initPairs (s : Frame) : List (Rat × Rat) :=
  (dedupF (s.rows.filterMap (rowId s))).map (fun e => (e, e))

/-- Join the final (ego, alter) pairs against the characteristics frame on
the alter key: each ego is paired with every matching characteristics row. -/
def joinAgg (a : Frame) (pairs : List (Rat × Rat)) : List (Rat × List Rat) :=
  pairs.flatMap (fun p =>
    (a.rows.filter (fun r => decide (rowId a r = some p.2))).map (fun r => (p.1, r)))

/-- The non-null values of column `v` over a list of rows of frame `a`. -/
def colValues (a : Frame) (v : Name) (rows : List (List Rat)) : List Rat :=
  match a.cols.findIdx? (fun c => decide (c = v)) with
  | none => []
  | some i => rows.filterMap (fun r => r.get? i)

def listSum : List Rat → Rat
  | [] => 0
  | x :: xs => x + listSum xs

def listMin2 : List Rat → Option Rat
  | [] => none
  | x :: xs =>
    match listMin2 xs with
    | none => some x
    | some y => some (min x y)

def listMax2 : List Rat → Option Rat
  | [] => none
  | x :: xs =>
    match listMax2 xs with
    | none => some x
    | some y => some (max x y)

/-- Modelled from the spec: one SQL-style aggregate over the non-null
values of a group.  `avg`/`mean` is the arithmetic mean, `sum`, `count`,
`min`, `max` as usual; for `stddev_samp` the spec's sample standard
deviation is the square root of the value recorded here (the square root
of a rational is irrational in general, and no documented property
evaluates `stddev_samp`, so the embedding records its square). -/
def evalAgg (f : Name) (vs : List Rat) : Option Rat :=
  if vs = [] then (if f = "count".data then some 0 else none)
  else if f = "avg".data ∨ f = "mean".data then
    some (listSum vs / (vs.length : Rat))
  else if f = "sum".data then some (listSum vs)
  else if f = "count".data then some (vs.length : Rat)
  else if f = "min".data then listMin2 vs
  else if f = "max".data then listMax2 vs
  else if f = "stddev_samp".data then
    if vs.length ≤ 1 then none
    else
      some (listSum (vs.map (fun x => (x - listSum vs / (vs.length : Rat)) ^ 2)) /
        ((vs.length : Rat) - 1))
  else none

/-- Output column names, `<function>_<variable>`, grouped by variable. -/
def aggColNames (vars funcs : List Name) : List Name :=
  vars.flatMap (fun v => funcs.map (fun f => f ++ '_' :: v))

/-- The aggregate column values for one ego: `null` in every column when
the ego has no joined characteristics row (left-join semantics), the
requested aggregates otherwise. -/
def aggRow (a : Frame) (vars funcs : List Name) (joined : List (Rat × List Rat))
    (e : Rat) : List (Option Rat) :=
  let mine := (joined.filter (fun pr => decide (pr.1 = e))).map Prod.snd
  if mine.isEmpty then List.replicate (vars.length * funcs.length) none
  else vars.flatMap (fun v => funcs.map (fun f => evalAgg f (colValues a v mine)))

/-- An output table: nullable cells. -/
structure OutFrame where
  cols : List Name
  rows : List (List (Option Rat))
deriving DecidableEq

/-- The aggregate cells appended to one sample row: `null` throughout when
the row has no identifier, its ego's aggregates otherwise. -/
def aggCellsFor (s a : Frame) (plan : Plan) (aggFuncs : List Name)
    (joined : List (Rat × List Rat)) (r : List Rat) : List (Option Rat) :=
  match rowId s r with
  | none => List.replicate (plan.vars.length * aggFuncs.length) none
  | some e => aggRow a plan.vars aggFuncs joined e

/-- The reconciled output rows: every (deduplicated) sample row, in its
original order, extended with its aggregate columns. -/
def outRowsOf (s a : Frame) (plan : Plan) (aggFuncs : List Name)
    (joined : List (Rat × List Rat)) : List (List (Option Rat)) :=
  s.rows.map (fun r => r.map some ++ aggCellsFor s a plan aggFuncs joined r)

/-- The pipeline after validation: deduplicate both inputs, resolve one
file per hop, run the join chain (eager or deferred), aggregate, and
left-join back onto the sample. -/
def runPipeline (plan : Plan) (dfSample dfAgg : Frame) (year : Nat)
    (fs : List RelFile) (aggFuncs : List Name) (lazy : Bool) :
    Except NetErr OutFrame × List Event :=
  let s : Frame := ⟨dfSample.cols, dedupF dfSample.rows⟩
  let a : Frame := ⟨dfAgg.cols, dedupF dfAgg.rows⟩
  match resolveFiles plan.hops year fs with
  | .error e => (.error e, [.droppingDuplicates, .droppingDuplicates])
  | .ok files =>
    let stages := mkStages files plan.hops
    let ini := initPairs s
    let pairs := if lazy then runLazy stages ini else runEager stages ini
    let joined := joinAgg a pairs
    (.ok ⟨s.cols ++ aggColNames plan.vars aggFuncs, outRowsOf s a plan aggFuncs joined⟩,
     [.droppingDuplicates, .droppingDuplicates] ++
       files.map (fun f => Event.fileOpened f.ctx f.year) ++ stageWarnings stages ini)

/-- Modelled from the spec: the public entry point.  Validation runs first
and is fully offline; any validation failure aborts with an empty event
trace (no file is opened). -/
def transform (q : Name) (dfSample dfAgg : Frame) (year : Nat)
    (fs : List RelFile) (aggFuncs : List Name) (lazy : Bool) :
    Except NetErr OutFrame × List Event :=
  match validate_query q dfSample dfAgg aggFuncs with
  | .error e => (.error e, [])
  | .ok plan => runPipeline plan dfSample dfAgg year fs aggFuncs lazy

/-! ## Engine lemmas -/

theorem foldl_comp_runStage (sts : List Stage) :
    ∀ (g : List (Rat × Rat) → List (Rat × Rat)) (ps : List (Rat × Rat)),
    (sts.foldl (fun g st => fun x => runStage st (g x)) g) ps =
      sts.foldl (fun acc st => runStage st acc) (g ps) := by
  induction sts with
  | nil => intro g ps; rfl
  | cons st sts ih => intro g ps; exact ih _ _

/-- Deferred execution computes exactly the eager stage chain. -/
theorem runLazy_eq_runEager (sts : List Stage) (ini : List (Rat × Rat)) :
    runLazy sts ini = runEager sts ini :=
  foldl_comp_runStage sts (fun ps => ps) ini

theorem pickMax_mem : ∀ (l : List RelFile) (f : RelFile), pickMax l = some f → f ∈ l := by
  intro l
  induction l with
  | nil => intro f h; simp [pickMax] at h
  | cons x xs ih =>
    intro f h
    rcases hx : pickMax xs with _ | g
    · simp only [pickMax, hx] at h
      obtain rfl := Option.some_inj.1 h
      exact List.mem_cons_self x xs
    · simp only [pickMax, hx] at h
      by_cases hv : g.version ≤ x.version
      · rw [if_pos hv] at h
        obtain rfl := Option.some_inj.1 h
        exact List.mem_cons_self x xs
      · rw [if_neg hv] at h
        obtain rfl := Option.some_inj.1 h
        exact List.mem_cons_of_mem _ (ih g hx)

theorem pickMax_none_iff : ∀ (l : List RelFile), pickMax l = none ↔ l = [] := by
  intro l
  cases l with
  | nil => simp [pickMax]
  | cons x xs =>
    constructor
    · intro h
      rcases hx : pickMax xs with _ | g
      · simp only [pickMax, hx] at h
        exact Option.noConfusion h
      · simp only [pickMax, hx] at h
        by_cases hv : g.version ≤ x.version
        · rw [if_pos hv] at h; exact Option.noConfusion h
        · rw [if_neg hv] at h; exact Option.noConfusion h
    · intro h; cases h

theorem pickMax_is_max : ∀ (l : List RelFile) (f : RelFile), pickMax l = some f →
    ∀ g ∈ l, g.version ≤ f.version := by
  intro l
  induction l with
  | nil => intro f _ g hg; cases hg
  | cons x xs ih =>
    intro f h g hg
    rcases hx : pickMax xs with _ | m
    · simp only [pickMax, hx] at h
      obtain rfl := Option.some_inj.1 h
      have hxs : xs = [] := (pickMax_none_iff xs).1 hx
      rcases List.mem_cons.1 hg with rfl | hgx
      · exact le_refl _
      · rw [hxs] at hgx; cases hgx
    · simp only [pickMax, hx] at h
      by_cases hv : m.version ≤ x.version
      · rw [if_pos hv] at h
        obtain rfl := Option.some_inj.1 h
        rcases List.mem_cons.1 hg with rfl | hgx
        · exact le_refl _
        · exact le_trans (ih m hx g hgx) hv
      · rw [if_neg hv] at h
        obtain rfl := Option.some_inj.1 h
        rcases List.mem_cons.1 hg with rfl | hgx
        · exact le_of_lt (lt_of_not_le hv)
        · exact ih m hx g hgx

/-- The two execution modes agree stage-for-stage after validation. -/
theorem runPipeline_lazy_eq (plan : Plan) (dfSample dfAgg : Frame) (year : Nat)
    (fs : List RelFile) (aggFuncs : List Name) :
    runPipeline plan dfSample dfAgg year fs aggFuncs true =
      runPipeline plan dfSample dfAgg year fs aggFuncs false := by
  unfold runPipeline
  cases resolveFiles plan.hops year fs with
  | error e => rfl
  | ok files => simp [runLazy_eq_runEager]

/-- C6: for every valid query and identical inputs, transform with deferred
execution (`lazy = true`) and transform with eager execution
(`lazy = false`) return identical output tables: the lazy flag never
changes any row, column, or value of the result (proved here for every
input, with the diagnostic event trace also identical). -/
theorem C6_lazy_and_eager_transform_agree (q : Name) (dfSample dfAgg : Frame)
    (year : Nat) (fs : List RelFile) (aggFuncs : List Name) :
    transform q dfSample dfAgg year fs aggFuncs true =
      transform q dfSample dfAgg year fs aggFuncs false := by
  unfold transform
  cases validate_query q dfSample dfAgg aggFuncs with
  | error e => rfl
  | ok plan => exact runPipeline_lazy_eq plan dfSample dfAgg year fs aggFuncs

/-- C5: for every (context, year) with at least one matching versioned
relationship file, `format_path` returns a matching file of maximum
version; when no candidate matches, it raises a
`RelationFileNotFoundError` naming the offending context and year. -/
theorem C5_format_path_selects_max_version :
    (∀ (ctx : Context) (year : Nat) (fs : List RelFile),
      (∃ f ∈ fs, f.ctx = ctx ∧ f.year = year) →
      ∃ g, format_path ctx year fs = .ok g ∧ g ∈ fs ∧ g.ctx = ctx ∧ g.year = year ∧
        ∀ f ∈ fs, f.ctx = ctx → f.year = year → f.version ≤ g.version) ∧
    (∀ (ctx : Context) (year : Nat) (fs : List RelFile),
      (∀ f ∈ fs, ¬ (f.ctx = ctx ∧ f.year = year)) →
      format_path ctx year fs = .error (.relationFileNotFound ctx year)) := by
  constructor
  · rintro ctx year fs ⟨f, hf, hctx, hyear⟩
    have hfc : f ∈ fs.filter (fun g => decide (g.ctx = ctx ∧ g.year = year)) :=
      List.mem_filter.2 ⟨hf, by simp [hctx, hyear]⟩
    rcases hp : pickMax (fs.filter (fun g => decide (g.ctx = ctx ∧ g.year = year)))
      with _ | g
    · exfalso
      rw [(pickMax_none_iff _).1 hp] at hfc
      cases hfc
    · have hgf := List.mem_filter.1 (pickMax_mem _ g hp)
      have hgprop : g.ctx = ctx ∧ g.year = year := by
        have h2 := hgf.2
        simpa using h2
      refine ⟨g, ?_, hgf.1, hgprop.1, hgprop.2, ?_⟩
      · unfold format_path
        rw [hp]
      · intro f2 hf2 hc2 hy2
        exact pickMax_is_max _ g hp f2 (List.mem_filter.2 ⟨hf2, by simp [hc2, hy2]⟩)
  · intro ctx year fs hnone
    have hfil : fs.filter (fun g => decide (g.ctx = ctx ∧ g.year = year)) = [] := by
      rw [List.filter_eq_nil_iff]
      intro f hf
      simpa using hnone f hf
    unfold format_path
    rw [hfil]
    rfl

/-- Witness for C5 at a concrete file system: the version-3 Family file is
picked among versions 1 and 3, and a missing (context, year) reports the
context and year. -/
theorem C5_witness :
    (∃ g, format_path Context.Family 2021
        [⟨Context.Family, 2021, 1, []⟩, ⟨Context.Family, 2021, 3, []⟩,
         ⟨Context.Colleagues, 2021, 7, []⟩] = .ok g ∧
      g ∈ [⟨Context.Family, 2021, 1, []⟩, ⟨Context.Family, 2021, 3, []⟩,
           ⟨Context.Colleagues, 2021, 7, []⟩] ∧
      g.ctx = Context.Family ∧ g.year = 2021 ∧
      ∀ f ∈ [⟨Context.Family, 2021, 1, []⟩, ⟨Context.Family, 2021, 3, []⟩,
             (⟨Context.Colleagues, 2021, 7, []⟩ : RelFile)],
        f.ctx = Context.Family → f.year = 2021 → f.version ≤ g.version) ∧
    format_path Context.Schoolmates 2020 [⟨Context.Family, 2021, 1, []⟩] =
      .error (.relationFileNotFound Context.Schoolmates 2020) :=
  ⟨C5_format_path_selects_max_version.1 Context.Family 2021 _
      ⟨⟨Context.Family, 2021, 1, []⟩, by decide⟩,
   C5_format_path_selects_max_version.2 Context.Schoolmates 2020 _ (by decide)⟩

/-- C9: the read-only constant `context2types` maps exactly the five
contexts to the documented code sets, and a hop's explicit code list
passes code validation exactly when each code lies in the set for its
context. -/
theorem C9_codebook_contents_and_code_validation :
    (context2types Context.Family = [301, 302, 303, 304, 305, 306, 307, 308, 309,
        310, 311, 312, 313, 314, 315, 316, 317, 318, 319, 320, 321, 322] ∧
     context2types Context.Colleagues = [201] ∧
     context2types Context.Neighbors = [101, 102] ∧
     context2types Context.Schoolmates = [501, 502, 503, 504, 505, 506] ∧
     context2types Context.Housemates = [401, 402]) ∧
    ∀ (ctx : Context) (cs : List Nat),
      checkCodes ctx cs = .ok cs ↔ ∀ c ∈ cs, c ∈ context2types ctx := by
  refine ⟨⟨rfl, rfl, rfl, rfl, rfl⟩, ?_⟩
  intro ctx cs
  unfold checkCodes
  rcases hf : cs.find? (fun c => decide (c ∉ context2types ctx)) with _ | c
  · constructor
    · intro _ c hc
      have hsome := List.find?_eq_none.1 hf c hc
      simpa using hsome
    · intro _; rfl
  · constructor
    · intro h; exact Except.noConfusion h
    · intro hall
      exfalso
      have hpred := List.find?_some hf
      have hcmem : c ∈ cs := List.mem_of_find?_eq_some hf
      have hnot : c ∉ context2types ctx := by simpa using hpred
      exact hnot (hall c hcmem)

/-- Witness for C9: concrete code lists pass and the verdict matches
membership in the codebook sets. -/
theorem C9_witness :
    checkCodes Context.Family [301, 303] = .ok [301, 303] :=
  (C9_codebook_contents_and_code_validation.2 Context.Family [301, 303]).2 (by decide)

/-! ## Validation lemmas -/

theorem checkCodes_ok (ctx : Context) (cs ds : List Nat)
    (h : checkCodes ctx cs = .ok ds) :
    ds = cs ∧ ∀ c ∈ ds, c ∈ context2types ctx := by
  unfold checkCodes at h
  rcases hf : cs.find? (fun c => decide (c ∉ context2types ctx)) with _ | c
  · rw [hf] at h
    injection h with h2
    subst h2
    refine ⟨rfl, fun c hc => ?_⟩
    have hnone := List.find?_eq_none.1 hf c hc
    simpa using hnone
  · rw [hf] at h
    exact Except.noConfusion h

theorem mapEx_ok_forall {α β : Type} (f : α → Except NetErr β) :
    ∀ (l : List α) (ys : List β), mapEx f l = .ok ys →
      ∀ y ∈ ys, ∃ x ∈ l, f x = .ok y := by
  intro l
  induction l with
  | nil =>
    intro ys h y hy
    unfold mapEx at h
    injection h with h2
    subst h2
    cases hy
  | cons x xs ih =>
    intro ys h y hy
    unfold mapEx at h
    rcases hfx : f x with e | y0
    · rw [hfx] at h; exact Except.noConfusion h
    · rw [hfx] at h
      rcases hrest : mapEx f xs with e | ys0
      · rw [hrest] at h; exact Except.noConfusion h
      · rw [hrest] at h
        injection h with h2
        subst h2
        rcases List.mem_cons.1 hy with rfl | hy0
        · exact ⟨x, List.mem_cons_self x xs, hfx⟩
        · obtain ⟨x1, hx1, hfx1⟩ := ih ys0 hrest y hy0
          exact ⟨x1, List.mem_cons_of_mem _ hx1, hfx1⟩

theorem parseCodes_ok_codes (ctx : Context) (inner : Name) (sel : CodeSel)
    (h : parseCodes ctx inner = .ok sel) :
    ∀ cs, sel = CodeSel.codes cs → ∀ c ∈ cs, c ∈ context2types ctx := by
  intro cs hsel c hc
  unfold parseCodes at h
  by_cases hall : trimC inner = "all".data
  · rw [if_pos hall] at h
    injection h with h2
    rw [← h2] at hsel
    exact CodeSel.noConfusion hsel
  · rw [if_neg hall] at h
    rcases hm : mapEx (fun p => (parseNat? p).elim (.error .malformedQuery) .ok)
        ((splitOnChar ',' inner).map trimC) with e | cs1
    · simp only [hm] at h; exact Except.noConfusion h
    · simp only [hm] at h
      rcases hck : checkCodes ctx cs1 with e | cs2
      · simp only [hck] at h; exact Except.noConfusion h
      · simp only [hck] at h
        injection h with h2
        rw [← h2] at hsel
        have hcs : cs2 = cs := CodeSel.codes.inj hsel
        subst hcs
        obtain ⟨_, hall2⟩ := checkCodes_ok ctx cs1 cs2 hck
        exact hall2 c hc

theorem parseHop_ok_codes (s : Name) (hp : Hop) (h : parseHop s = .ok hp) :
    ∀ cs, hp.sel = CodeSel.codes cs → ∀ c ∈ cs, c ∈ context2types hp.ctx := by
  intro cs hsel c hc
  unfold parseHop at h
  rcases hb : bracketSplit s with _ | ⟨nm, inner⟩
  · simp only [hb] at h; exact Except.noConfusion h
  · simp only [hb] at h
    rcases hcx : parseContext? nm with _ | ctx
    · simp only [hcx] at h; exact Except.noConfusion h
    · simp only [hcx] at h
      rcases hpc : parseCodes ctx inner with e | sel
      · simp only [hpc] at h; exact Except.noConfusion h
      · simp only [hpc] at h
        injection h with h2
        subst h2
        exact parseCodes_ok_codes ctx inner sel hpc cs hsel c hc

theorem parseCore_ok_hops (xs : List Name) (plan : Plan)
    (h : parseCore xs = .ok plan) :
    ∀ hp ∈ plan.hops, ∃ s, parseHop s = .ok hp := by
  intro hp hhp
  cases xs with
  | nil => exact Except.noConfusion h
  | cons a0 rest =>
    unfold parseCore at h
    rcases hl : rest.getLast? with _ | anch
    · simp only [hl] at h; exact Except.noConfusion h
    · simp only [hl] at h
      by_cases hA : isAnchor anch = true
      · rw [if_pos hA] at h
        rcases hd : rest.dropLast with _ | ⟨h0, hs⟩
        · simp only [hd] at h; exact Except.noConfusion h
        · simp only [hd] at h
          rcases hv : parseAggList a0 with e | vars
          · simp only [hv] at h; exact Except.noConfusion h
          · simp only [hv] at h
            rcases hm : mapEx parseHop (h0 :: hs) with e | hops
            · simp only [hm] at h; exact Except.noConfusion h
            · simp only [hm] at h
              injection h with h2
              rw [← h2] at hhp
              obtain ⟨s, _, hps⟩ := mapEx_ok_forall parseHop (h0 :: hs) hops hm hp hhp
              exact ⟨s, hps⟩
      · rw [if_neg hA] at h; exact Except.noConfusion h

theorem parseSegs_ok_hops (segs : List Name) (plan : Plan)
    (h : parseSegs segs = .ok plan) :
    ∀ hp ∈ plan.hops, ∃ s, parseHop s = .ok hp := by
  unfold parseSegs at h
  split at h
  · split at h
    · exact parseCore_ok_hops _ plan h
    · exact parseCore_ok_hops _ plan h
  · exact parseCore_ok_hops _ plan h

theorem validate_query_ok (q : Name) (dfSample dfAgg : Frame)
    (aggFuncs : List Name) (plan : Plan)
    (h : validate_query q dfSample dfAgg aggFuncs = .ok plan) :
    parseSegs (segsOf q) = .ok plan ∧ ∀ f ∈ aggFuncs, f ∈ supportedAggFuncs := by
  unfold validate_query at h
  rcases hp : parseSegs (segsOf q) with e | plan0
  · simp only [hp] at h; exact Except.noConfusion h
  · simp only [hp] at h
    by_cases h1 : rinpersoon ∉ dfSample.cols
    · rw [if_pos h1] at h; exact Except.noConfusion h
    · rw [if_neg h1] at h
      by_cases h2 : rinpersoon ∉ dfAgg.cols
      · rw [if_pos h2] at h; exact Except.noConfusion h
      · rw [if_neg h2] at h
        rcases hv : plan0.vars.find? (fun v => decide (v ∉ dfAgg.cols)) with _ | v
        · simp only [hv] at h
          rcases hfind : aggFuncs.find? (fun f => decide (f ∉ supportedAggFuncs))
            with _ | f0
          · simp only [hfind] at h
            injection h with h3
            subst h3
            refine ⟨rfl, fun f hf => ?_⟩
            have hnone := List.find?_eq_none.1 hfind f hf
            simpa using hnone
          · simp only [hfind] at h
            exact Except.noConfusion h
        · simp only [hv] at h
          exact Except.noConfusion h

/-- C4: all structural and schema errors — including invalid relationship
codes and unsupported aggregation function names — are caught during
validation, before any file is opened: a validation failure yields an
empty event trace (no I/O), and no plan with an out-of-codebook code or an
unsupported aggregation function ever passes validation. -/
theorem C4_validation_precedes_io :
    (∀ (q : Name) (dfSample dfAgg : Frame) (year : Nat) (fs : List RelFile)
        (aggFuncs : List Name) (lazy : Bool) (e : NetErr),
      validate_query q dfSample dfAgg aggFuncs = .error e →
      transform q dfSample dfAgg year fs aggFuncs lazy = (.error e, [])) ∧
    (∀ (q : Name) (dfSample dfAgg : Frame) (aggFuncs : List Name) (plan : Plan),
      validate_query q dfSample dfAgg aggFuncs = .ok plan →
      (∀ hp ∈ plan.hops, ∀ cs, hp.sel = CodeSel.codes cs →
        ∀ c ∈ cs, c ∈ context2types hp.ctx) ∧
      ∀ f ∈ aggFuncs, f ∈ supportedAggFuncs) := by
  constructor
  · intro q dfSample dfAgg year fs aggFuncs lazy e h
    unfold transform
    rw [h]
  · intro q dfSample dfAgg aggFuncs plan h
    obtain ⟨hp, hfuncs⟩ := validate_query_ok q dfSample dfAgg aggFuncs plan h
    refine ⟨fun hop hmem cs hsel c hc => ?_, hfuncs⟩
    obtain ⟨s, hps⟩ := parseSegs_ok_hops _ plan hp hop hmem
    exact parseHop_ok_codes s hop hps cs hsel c hc

/-- Witness for C4: a query with the out-of-codebook Family code 999 fails
validation with `InvalidRelationshipCodeError` and `transform` aborts with
an empty event trace — no file-opened event. -/
theorem C4_witness :
    validate_query "[Income] -> Family[999] -> sample".data
        ⟨[rinpersoon], []⟩ ⟨[rinpersoon, "Income".data], []⟩ ["avg".data] =
      .error (.invalidRelationshipCode Context.Family 999) ∧
    transform "[Income] -> Family[999] -> sample".data
        ⟨[rinpersoon], []⟩ ⟨[rinpersoon, "Income".data], []⟩ 2021
        [⟨Context.Family, 2021, 1, []⟩] ["avg".data] true =
      (.error (.invalidRelationshipCode Context.Family 999), []) :=
  ⟨by decide, C4_validation_precedes_io.1 _ _ _ _ _ _ _ _ (by decide)⟩

/-! ## The shape of a successful transform -/

/-- A successful `transform` decomposes into a validated plan, resolved
files, the reconciled output table, and the event trace. -/
theorem transform_ok_shape (q : Name) (dfSample dfAgg : Frame) (year : Nat)
    (fs : List RelFile) (aggFuncs : List Name) (lazy : Bool) (out : OutFrame)
    (ev : List Event)
    (h : transform q dfSample dfAgg year fs aggFuncs lazy = (.ok out, ev)) :
    ∃ plan files,
      validate_query q dfSample dfAgg aggFuncs = .ok plan ∧
      resolveFiles plan.hops year fs = .ok files ∧
      out = ⟨dfSample.cols ++ aggColNames plan.vars aggFuncs,
        outRowsOf ⟨dfSample.cols, dedupF dfSample.rows⟩ ⟨dfAgg.cols, dedupF dfAgg.rows⟩
          plan aggFuncs
          (joinAgg ⟨dfAgg.cols, dedupF dfAgg.rows⟩
            (runEager (mkStages files plan.hops)
              (initPairs ⟨dfSample.cols, dedupF dfSample.rows⟩)))⟩ ∧
      ev = [.droppingDuplicates, .droppingDuplicates] ++
        files.map (fun f => Event.fileOpened f.ctx f.year) ++
        stageWarnings (mkStages files plan.hops)
          (initPairs ⟨dfSample.cols, dedupF dfSample.rows⟩) := by
  unfold transform at h
  rcases hv : validate_query q dfSample dfAgg aggFuncs with e | plan
  · simp only [hv] at h
    exact absurd (congrArg Prod.fst h) (by simp)
  · simp only [hv] at h
    unfold runPipeline at h
    rcases hr : resolveFiles plan.hops year fs with e | files
    · simp only [hr] at h
      exact absurd (congrArg Prod.fst h) (by simp)
    · simp only [hr] at h
      refine ⟨plan, files, rfl, hr, ?_, ?_⟩
      · have h1 := congrArg Prod.fst h
        dsimp only at h1
        injection h1 with h3
        rw [← h3]
        cases lazy
        · rfl
        · simp [runLazy_eq_runEager]
      · have h2 := congrArg Prod.snd h
        dsimp only at h2
        exact h2.symm

theorem nodup_of_nodup_filterMap_total {α β : Type} (f : α → Option β) :
    ∀ (l : List α), (∀ x ∈ l, (f x).isSome) → (l.filterMap f).Nodup → l.Nodup := by
  intro l
  induction l with
  | nil => intro _ _; exact List.nodup_nil
  | cons x xs ih =>
    intro htot h
    rw [List.filterMap_cons] at h
    rcases hfx : f x with _ | y
    · have hx := htot x (List.mem_cons_self x xs)
      rw [hfx] at hx
      exact absurd hx (by simp)
    · rw [hfx] at h
      obtain ⟨hy, hxs⟩ := List.nodup_cons.1 h
      refine List.nodup_cons.2
        ⟨fun hxmem => ?_, ih (fun z hz => htot z (List.mem_cons_of_mem _ hz)) hxs⟩
      exact hy (List.mem_filterMap.2 ⟨x, hxmem, hfx⟩)

/-- C1: for every valid query and every valid SampleFrame (an identifier
in every row, unique across rows), the table returned by `transform` has
exactly as many rows as the SampleFrame: each output row is the
corresponding SampleFrame row in the original order, extended with the
aggregate columns. -/
theorem C1_cardinality_preserved (q : Name) (dfSample dfAgg : Frame)
    (year : Nat) (fs : List RelFile) (aggFuncs : List Name) (lazy : Bool)
    (out : OutFrame) (ev : List Event)
    (hids : ∀ r ∈ dfSample.rows, (rowId dfSample r).isSome)
    (hnd : (dfSample.rows.filterMap (rowId dfSample)).Nodup)
    (h : transform q dfSample dfAgg year fs aggFuncs lazy = (.ok out, ev)) :
    out.rows.length = dfSample.rows.length ∧
    ∃ g : List Rat → List (Option Rat),
      out.rows = dfSample.rows.map (fun r => r.map some ++ g r) := by
  obtain ⟨plan, files, hv, hr, hout, hev⟩ :=
    transform_ok_shape q dfSample dfAgg year fs aggFuncs lazy out ev h
  have hrows : dedupF dfSample.rows = dfSample.rows :=
    dedupF_eq_self _
      (nodup_of_nodup_filterMap_total (rowId dfSample) dfSample.rows hids hnd)
  subst hout
  constructor
  · unfold outRowsOf
    dsimp only
    rw [List.length_map, hrows]
  · refine ⟨fun r => aggCellsFor ⟨dfSample.cols, dfSample.rows⟩
      ⟨dfAgg.cols, dedupF dfAgg.rows⟩ plan aggFuncs
      (joinAgg ⟨dfAgg.cols, dedupF dfAgg.rows⟩
        (runEager (mkStages files plan.hops)
          (initPairs ⟨dfSample.cols, dfSample.rows⟩))) r, ?_⟩
    unfold outRowsOf
    dsimp only
    rw [hrows]

/-- Validation depends only on the schemas of the two input frames, never
on their rows. -/
theorem validate_query_cols (q : Name) (s1 s2 a1 a2 : Frame) (aggFuncs : List Name)
    (hs : s1.cols = s2.cols) (ha : a1.cols = a2.cols) :
    validate_query q s1 a1 aggFuncs = validate_query q s2 a2 aggFuncs := by
  unfold validate_query
  rw [hs, ha]

/-- The pipeline is invariant under pre-deduplicating the input frames. -/
theorem runPipeline_dedup (plan : Plan) (dfSample dfAgg : Frame) (year : Nat)
    (fs : List RelFile) (aggFuncs : List Name) (lazy : Bool) :
    runPipeline plan dfSample dfAgg year fs aggFuncs lazy =
      runPipeline plan ⟨dfSample.cols, dedupF dfSample.rows⟩
        ⟨dfAgg.cols, dedupF dfAgg.rows⟩ year fs aggFuncs lazy := by
  unfold runPipeline
  simp only [dedupF_idem]

/-- C10: `transform` deduplicates both input frames before any join, the
informational dropping-duplicates diagnostic is always logged on success,
and the result on any inputs equals the result on the deduplicated inputs
— so a SampleFrame with duplicate rows yields one output row per distinct
row. -/
theorem C10_inputs_deduplicated (q : Name) (dfSample dfAgg : Frame) (year : Nat)
    (fs : List RelFile) (aggFuncs : List Name) (lazy : Bool) :
    transform q dfSample dfAgg year fs aggFuncs lazy =
      transform q ⟨dfSample.cols, dedupF dfSample.rows⟩
        ⟨dfAgg.cols, dedupF dfAgg.rows⟩ year fs aggFuncs lazy ∧
    (∀ out ev, transform q dfSample dfAgg year fs aggFuncs lazy = (.ok out, ev) →
      Event.droppingDuplicates ∈ ev ∧
      out.rows.length = (dedupF dfSample.rows).length) := by
  constructor
  · have hv : validate_query q ⟨dfSample.cols, dedupF dfSample.rows⟩
        ⟨dfAgg.cols, dedupF dfAgg.rows⟩ aggFuncs =
        validate_query q dfSample dfAgg aggFuncs :=
      validate_query_cols q _ dfSample _ dfAgg aggFuncs rfl rfl
    unfold transform
    rw [hv]
    cases validate_query q dfSample dfAgg aggFuncs with
    | error e => rfl
    | ok plan => exact runPipeline_dedup plan dfSample dfAgg year fs aggFuncs lazy
  · intro out ev h
    obtain ⟨plan, files, hv, hr, hout, hev⟩ :=
      transform_ok_shape q dfSample dfAgg year fs aggFuncs lazy out ev h
    constructor
    · rw [hev]
      exact List.mem_append_left _ (List.mem_append_left _ (List.mem_cons_self _ _))
    · rw [hout]
      unfold outRowsOf
      dsimp only
      rw [List.length_map]

/-! ## The spec's running example

Sample identifiers {1, 2, 3} (3 reaches nothing), Family[301] edges
{1→10, 2→20}, Income 10→100, 20→200, `"[Income] -> Family[301] -> sample"`
with the `avg` aggregate. -/

def exSample : Frame := ⟨[rinpersoon], [[1], [2], [3]]⟩

def exAgg : Frame := ⟨[rinpersoon, "Income".data], [[10, 100], [20, 200]]⟩

def exFiles : List RelFile := [⟨.Family, 2021, 1, [⟨1, 10, 301⟩, ⟨2, 20, 301⟩]⟩]

def exQuery : Name := "[Income] -> Family[301] -> sample".data

def exOut : OutFrame :=
  ⟨[rinpersoon, "avg_Income".data],
   [[some 1, some 100], [some 2, some 200], [some 3, none]]⟩

def exEvents : List Event :=
  [.droppingDuplicates, .droppingDuplicates, .fileOpened .Family 2021]

unseal Rat.mul Rat.inv Rat.add Rat.sub in
/-- Witness for C1: on the running example, the output has one row per
sample row, each the original row extended with the aggregate columns. -/
theorem C1_witness :
    exOut.rows.length = exSample.rows.length ∧
    ∃ g : List Rat → List (Option Rat),
      exOut.rows = exSample.rows.map (fun r => r.map some ++ g r) :=
  C1_cardinality_preserved exQuery exSample exAgg 2021 exFiles ["avg".data] true
    exOut exEvents (by decide) (by decide) (by decide)

def dupSample : Frame := ⟨[rinpersoon], [[1], [1], [2]]⟩

def dupOut : OutFrame :=
  ⟨[rinpersoon, "avg_Income".data], [[some 1, some 100], [some 2, some 200]]⟩

unseal Rat.mul Rat.inv Rat.add Rat.sub in
/-- Witness for C10: a SampleFrame with a duplicated row yields one output
row per distinct row, and the informational diagnostic is logged. -/
theorem C10_witness :
    Event.droppingDuplicates ∈ exEvents ∧
    dupOut.rows.length = (dedupF dupSample.rows).length :=
  (C10_inputs_deduplicated exQuery dupSample exAgg 2021 exFiles ["avg".data]
    true).2 dupOut exEvents (by decide)

/-! ## Null aggregates for unreachable egos -/

theorem joinAgg_fst_mem (a : Frame) (pairs : List (Rat × Rat)) :
    ∀ pr ∈ joinAgg a pairs, pr.1 ∈ pairs.map Prod.fst := by
  intro pr hpr
  unfold joinAgg at hpr
  obtain ⟨p, hp, hmem⟩ := List.mem_flatMap.1 hpr
  obtain ⟨r, hr, heq⟩ := List.mem_map.1 hmem
  rw [← heq]
  exact List.mem_map.2 ⟨p, hp, rfl⟩

theorem aggRow_eq_null (a : Frame) (vars funcs : List Name)
    (joined : List (Rat × List Rat)) (e : Rat)
    (h : ∀ pr ∈ joined, pr.1 ≠ e) :
    aggRow a vars funcs joined e =
      List.replicate (vars.length * funcs.length) none := by
  unfold aggRow
  have hfil : joined.filter (fun pr => decide (pr.1 = e)) = [] := by
    rw [List.filter_eq_nil_iff]
    intro pr hpr
    simpa using h pr hpr
  rw [hfil]
  rfl

unseal Rat.mul Rat.inv Rat.add Rat.sub in
/-- C2: an ego of the SampleFrame that reaches no alter at the final hop —
whatever the number of intermediate hops — receives `null` in every
aggregate column of its output row; and on the spec's example, adding the
edge-less ego 3 yields `avg_Income = null` for ego 3 and a three-row
output. -/
theorem C2_unreachable_ego_gets_null :
    (∀ (q : Name) (dfSample dfAgg : Frame) (year : Nat) (fs : List RelFile)
        (aggFuncs : List Name) (lazy : Bool) (out : OutFrame) (ev : List Event)
        (plan : Plan) (files : List RelFile) (i : Nat) (r : List Rat) (e : Rat),
      validate_query q dfSample dfAgg aggFuncs = .ok plan →
      resolveFiles plan.hops year fs = .ok files →
      transform q dfSample dfAgg year fs aggFuncs lazy = (.ok out, ev) →
      (dedupF dfSample.rows).get? i = some r →
      rowId ⟨dfSample.cols, dedupF dfSample.rows⟩ r = some e →
      e ∉ (runEager (mkStages files plan.hops)
            (initPairs ⟨dfSample.cols, dedupF dfSample.rows⟩)).map Prod.fst →
      out.rows.get? i =
        some (r.map some ++
          List.replicate (plan.vars.length * aggFuncs.length) none)) ∧
    transform exQuery exSample exAgg 2021 exFiles ["avg".data] true =
      (.ok exOut, exEvents) := by
  constructor
  · intro q dfSample dfAgg year fs aggFuncs lazy out ev plan files i r e
      hv hr h hrow hid hun
    obtain ⟨plan2, files2, hv2, hr2, hout, hev⟩ :=
      transform_ok_shape q dfSample dfAgg year fs aggFuncs lazy out ev h
    rw [hv] at hv2
    obtain rfl : plan = plan2 := Except.ok.inj hv2
    rw [hr] at hr2
    obtain rfl : files = files2 := Except.ok.inj hr2
    subst hout
    unfold outRowsOf
    dsimp only
    rw [List.get?_map, hrow]
    dsimp only [Option.map]
    unfold aggCellsFor
    simp only [hid]
    rw [aggRow_eq_null]
    intro pr hpr
    intro hpe
    apply hun
    rw [← hpe]
    exact joinAgg_fst_mem _ _ pr hpr
  · decide

unseal Rat.mul Rat.inv Rat.add Rat.sub in
/-- Witness for C2: on the running example, the output row of the
edge-less ego 3 (row index 2) is its sample row followed by a null
aggregate cell. -/
theorem C2_witness :
    exOut.rows.get? 2 =
      some (([3] : List Rat).map some ++ List.replicate (1 * 1) none) :=
  C2_unreachable_ego_gets_null.1 exQuery exSample exAgg 2021 exFiles
    ["avg".data] true exOut exEvents
    ⟨["Income".data], [⟨Context.Family, CodeSel.codes [301]⟩]⟩ exFiles 2 [3] 3
    (by decide) (by decide) (by decide) (by decide) (by decide) (by decide)

/-! ## Direction normalization and the anchor token -/

theorem parseSegs_cons (s : Name) (t : List Name) :
    parseSegs (s :: t) =
      if isAnchor s then parseCore ((s :: t).reverse) else parseCore (s :: t) := rfl

theorem parseAggList_ok_head (s : Name) (vs : List Name)
    (h : parseAggList s = .ok vs) : ∃ t, s = '[' :: t := by
  cases s with
  | nil => exact Except.noConfusion h
  | cons c t =>
    simp only [parseAggList] at h
    by_cases hc : c = '['
    · exact ⟨t, by rw [hc]⟩
    · rw [if_neg hc] at h
      exact Except.noConfusion h

theorem isAnchor_bracket_false (t : Name) : isAnchor ('[' :: t) = false := by
  unfold isAnchor
  rw [decide_eq_false_iff_not]
  intro hEq
  have hcons : toLowerC ('[' :: t) = Char.toLower '[' :: toLowerC t := rfl
  rw [hcons] at hEq
  have hsample : "sample".data = 's' :: "ample".data := rfl
  rw [hsample] at hEq
  injection hEq with h1 _
  exact absurd h1 (by decide)

theorem parseAggList_of_anchor (s : Name) (h : isAnchor s = true) :
    parseAggList s = .error .malformedQuery := by
  cases s with
  | nil => rfl
  | cons c t =>
    simp only [parseAggList]
    have hc : c ≠ '[' := by
      intro hceq
      rw [hceq, isAnchor_bracket_false] at h
      exact Bool.noConfusion h
    rw [if_neg hc]

theorem parseCore_ok_first (xs : List Name) (plan : Plan)
    (h : parseCore xs = .ok plan) :
    ∃ a0 rest, xs = a0 :: rest ∧ isAnchor a0 = false := by
  cases xs with
  | nil => exact Except.noConfusion h
  | cons a0 rest =>
    refine ⟨a0, rest, rfl, ?_⟩
    unfold parseCore at h
    rcases hl : rest.getLast? with _ | anch
    · simp only [hl] at h; exact Except.noConfusion h
    · simp only [hl] at h
      by_cases hA : isAnchor anch = true
      · rw [if_pos hA] at h
        rcases hd : rest.dropLast with _ | ⟨h0, hs⟩
        · simp only [hd] at h; exact Except.noConfusion h
        · simp only [hd] at h
          rcases hv : parseAggList a0 with e | vars
          · simp only [hv] at h; exact Except.noConfusion h
          · obtain ⟨t, rfl⟩ := parseAggList_ok_head a0 vars hv
            exact isAnchor_bracket_false t
      · rw [if_neg hA] at h; exact Except.noConfusion h

theorem parseCore_ok_last (xs : List Name) (plan : Plan)
    (h : parseCore xs = .ok plan) :
    ∃ anch, xs.getLast? = some anch ∧ isAnchor anch = true := by
  cases xs with
  | nil => exact Except.noConfusion h
  | cons a0 rest =>
    unfold parseCore at h
    rcases hl : rest.getLast? with _ | anch
    · simp only [hl] at h; exact Except.noConfusion h
    · simp only [hl] at h
      by_cases hA : isAnchor anch = true
      · refine ⟨anch, ?_, hA⟩
        cases rest with
        | nil => exact Option.noConfusion hl
        | cons r0 rs => rw [List.getLast?_cons_cons]; exact hl
      · rw [if_neg hA] at h; exact Except.noConfusion h

/-- Parsing is insensitive to the surface direction: reversing an accepted
segment sequence parses to the same plan. -/
theorem parseSegs_reverse (segs : List Name) (plan : Plan)
    (h : parseSegs segs = .ok plan) : parseSegs segs.reverse = .ok plan := by
  cases segs with
  | nil => exact Except.noConfusion h
  | cons s t =>
    rw [parseSegs_cons] at h
    by_cases hA : isAnchor s = true
    · rw [if_pos hA] at h
      obtain ⟨a0, rest0, hshape, hfalse⟩ := parseCore_ok_first _ plan h
      rw [hshape]
      rw [hshape] at h
      rw [parseSegs_cons, if_neg (by rw [hfalse]; exact Bool.false_ne_true)]
      exact h
    · rw [if_neg hA] at h
      obtain ⟨anch, hlast, hanch⟩ := parseCore_ok_last _ plan h
      have hhead : (s :: t).reverse.head? = some anch := by
        rw [List.head?_reverse]; exact hlast
      rcases hrev : (s :: t).reverse with _ | ⟨b, bs⟩
      · rw [hrev] at hhead; exact Option.noConfusion hhead
      · rw [hrev] at hhead
        injection hhead with hb
        subst hb
        rw [parseSegs_cons, if_pos hanch, ← hrev, List.reverse_reverse]
        exact h

/-- Validation depends on the query string only through its parsed
segments. -/
theorem validate_query_eq_of_parse (q1 q2 : Name) (dfSample dfAgg : Frame)
    (aggFuncs : List Name)
    (h : parseSegs (segsOf q1) = parseSegs (segsOf q2)) :
    validate_query q1 dfSample dfAgg aggFuncs =
      validate_query q2 dfSample dfAgg aggFuncs := by
  unfold validate_query
  rw [h]

/-- C7: `validate_query` is a pure function of the query string and the
two input schemas (never of the frame rows), and the reverse
(`sample`-first) surface direction is accepted and normalized to the same
plan as the variables-first form, so both directions yield identical
`transform` results. -/
theorem C7_validate_pure_and_direction_symmetric :
    (∀ (q : Name) (s1 s2 a1 a2 : Frame) (aggFuncs : List Name),
      s1.cols = s2.cols → a1.cols = a2.cols →
      validate_query q s1 a1 aggFuncs = validate_query q s2 a2 aggFuncs) ∧
    (∀ (q qrev : Name) (dfSample dfAgg : Frame) (year : Nat) (fs : List RelFile)
        (aggFuncs : List Name) (lazy : Bool) (plan : Plan),
      segsOf qrev = (segsOf q).reverse →
      validate_query q dfSample dfAgg aggFuncs = .ok plan →
      validate_query qrev dfSample dfAgg aggFuncs = .ok plan ∧
      transform qrev dfSample dfAgg year fs aggFuncs lazy =
        transform q dfSample dfAgg year fs aggFuncs lazy) := by
  refine ⟨fun q s1 s2 a1 a2 aggFuncs hs ha =>
    validate_query_cols q s1 s2 a1 a2 aggFuncs hs ha, ?_⟩
  intro q qrev dfSample dfAgg year fs aggFuncs lazy plan hseg hok
  have hp1 : parseSegs (segsOf q) = .ok plan :=
    (validate_query_ok q dfSample dfAgg aggFuncs plan hok).1
  have hp2 : parseSegs (segsOf qrev) = .ok plan := by
    rw [hseg]
    exact parseSegs_reverse _ plan hp1
  have hvq : validate_query qrev dfSample dfAgg aggFuncs =
      validate_query q dfSample dfAgg aggFuncs :=
    validate_query_eq_of_parse qrev q dfSample dfAgg aggFuncs (by rw [hp1, hp2])
  refine ⟨hvq.trans hok, ?_⟩
  unfold transform
  rw [hvq]

unseal Rat.mul Rat.inv Rat.add Rat.sub in
/-- Witness for C7: the concrete reversed query
`"sample -> Family[301] -> [Income]"` validates to the same plan as the
variables-first form and transforms identically. -/
theorem C7_witness :
    validate_query "sample -> Family[301] -> [Income]".data exSample exAgg
        ["avg".data] =
      .ok ⟨["Income".data], [⟨Context.Family, CodeSel.codes [301]⟩]⟩ ∧
    transform "sample -> Family[301] -> [Income]".data exSample exAgg 2021
        exFiles ["avg".data] true =
      transform exQuery exSample exAgg 2021 exFiles ["avg".data] true :=
  C7_validate_pure_and_direction_symmetric.2 exQuery
    "sample -> Family[301] -> [Income]".data exSample exAgg 2021 exFiles
    ["avg".data] true ⟨["Income".data], [⟨Context.Family, CodeSel.codes [301]⟩]⟩
    (by decide) (by decide)

theorem parseCore_head_anchor (a b : Name) (ys : List Name)
    (ha : isAnchor a = true) (hb : isAnchor b = true) :
    parseCore (a :: ys) = parseCore (b :: ys) := by
  simp only [parseCore]
  rcases hl : ys.getLast? with _ | anch
  · simp only [hl]
  · simp only [hl]
    by_cases hA : isAnchor anch = true
    · rw [if_pos hA, if_pos hA]
      rcases hd : ys.dropLast with _ | ⟨h0, hs⟩
      · simp only [hd]
      · simp only [hd]
        rw [parseAggList_of_anchor a ha, parseAggList_of_anchor b hb]
    · rw [if_neg hA, if_neg hA]

theorem parseCore_last_subst (xs : List Name) (a b : Name)
    (ha : isAnchor a = true) (hb : isAnchor b = true) :
    parseCore (xs ++ [a]) = parseCore (xs ++ [b]) := by
  cases xs with
  | nil => rfl
  | cons x0 rest =>
    show parseCore (x0 :: (rest ++ [a])) = parseCore (x0 :: (rest ++ [b]))
    simp only [parseCore, List.getLast?_concat, List.dropLast_concat]
    rw [if_pos ha, if_pos hb]

/-- Substituting any anchor spelling that lowercases to `sample` for the
canonical one leaves parsing unchanged. -/
theorem parseSegs_anchor_subst (ss : List Name) (a : Name)
    (ha : isAnchor a = true) :
    parseSegs (ss ++ [a]) = parseSegs (ss ++ ["sample".data]) := by
  have hb : isAnchor ("sample".data) = true := by decide
  cases ss with
  | nil =>
    show parseSegs [a] = parseSegs ["sample".data]
    rw [parseSegs_cons, parseSegs_cons, if_pos ha, if_pos hb]
    rfl
  | cons s0 ss2 =>
    show parseSegs (s0 :: (ss2 ++ [a])) =
      parseSegs (s0 :: (ss2 ++ ["sample".data]))
    rw [parseSegs_cons, parseSegs_cons]
    by_cases hs0 : isAnchor s0 = true
    · rw [if_pos hs0, if_pos hs0]
      have hrev1 : (s0 :: (ss2 ++ [a])).reverse = a :: (s0 :: ss2).reverse := by
        simp
      have hrev2 : (s0 :: (ss2 ++ ["sample".data])).reverse =
          "sample".data :: (s0 :: ss2).reverse := by
        simp
      rw [hrev1, hrev2]
      exact parseCore_head_anchor a "sample".data _ ha hb
    · rw [if_neg hs0, if_neg hs0]
      exact parseCore_last_subst (s0 :: ss2) a "sample".data ha hb

/-- C8: the terminal anchor token is matched case-insensitively: replacing
the anchor spelling `sample` by any capitalization with the same
lowercasing is accepted by `validate_query` with the same result and
produces the same `transform` output. -/
theorem C8_anchor_case_insensitive :
    ∀ (q q2 : Name) (dfSample dfAgg : Frame) (year : Nat) (fs : List RelFile)
      (aggFuncs : List Name) (lazy : Bool) (ss : List Name) (a : Name),
      segsOf q = ss ++ [a] → segsOf q2 = ss ++ ["sample".data] →
      toLowerC a = "sample".data →
      validate_query q dfSample dfAgg aggFuncs =
        validate_query q2 dfSample dfAgg aggFuncs ∧
      transform q dfSample dfAgg year fs aggFuncs lazy =
        transform q2 dfSample dfAgg year fs aggFuncs lazy := by
  intro q q2 dfSample dfAgg year fs aggFuncs lazy ss a h1 h2 hlow
  have ha : isAnchor a = true := by
    unfold isAnchor
    rw [hlow]
    exact decide_eq_true rfl
  have hps : parseSegs (segsOf q) = parseSegs (segsOf q2) := by
    rw [h1, h2]
    exact parseSegs_anchor_subst ss a ha
  have hvq := validate_query_eq_of_parse q q2 dfSample dfAgg aggFuncs hps
  refine ⟨hvq, ?_⟩
  unfold transform
  rw [hvq]

/-- Witness for C8: the anchor spelled `SAMPLE` validates and transforms
exactly as the lowercase form on the running example. -/
theorem C8_witness :
    validate_query "[Income] -> Family[301] -> SAMPLE".data exSample exAgg
        ["avg".data] =
      validate_query exQuery exSample exAgg ["avg".data] ∧
    transform "[Income] -> Family[301] -> SAMPLE".data exSample exAgg 2021
        exFiles ["avg".data] true =
      transform exQuery exSample exAgg 2021 exFiles ["avg".data] true :=
  C8_anchor_case_insensitive "[Income] -> Family[301] -> SAMPLE".data exQuery
    exSample exAgg 2021 exFiles ["avg".data] true
    ["[Income]".data, "Family[301]".data] "SAMPLE".data
    (by decide) (by decide) (by decide)

/-! ## Duplicate (ego, alter) pairs -/

/-- One ego, and the same (1, 10) pair produced by two different codes. -/
def oneSample : Frame := ⟨[rinpersoon], [[1]]⟩

def dupEdgeFiles : List RelFile :=
  [⟨.Family, 2021, 1, [⟨1, 10, 301⟩, ⟨1, 10, 302⟩]⟩]

def dupEdgeQuery : Name := "[Income] -> Family[301,302] -> sample".data

/-- C3: a (ego, alter) pair produced more than once — by the same or
different relationship codes — contributes exactly once to every
aggregate: each stage's output is duplicate-free and keeps exactly the raw
join's membership; a warning-class diagnostic is emitted whenever a
stage's deduplication collapsed something; and on a concrete example with
the pair (1, 10) produced by codes 301 and 302, the count aggregate is 1
(distinct alters), not 2 (raw edge rows), the notice is in the event
trace, and the call still succeeds. -/
theorem C3_duplicate_pairs_counted_once :
    (∀ (st : Stage) (ps : List (Rat × Rat)),
      (runStage st ps).Nodup ∧ ∀ x, x ∈ runStage st ps ↔ x ∈ rawStage st ps) ∧
    (∀ (st : Stage) (sts : List Stage) (ps : List (Rat × Rat)),
      ¬ (rawStage st ps).Nodup →
      Event.joinCardinalityNotice ∈ stageWarnings (st :: sts) ps) ∧
    transform dupEdgeQuery oneSample exAgg 2021 dupEdgeFiles ["count".data]
        true =
      (.ok ⟨[rinpersoon, "count_Income".data], [[some 1, some 1]]⟩,
       [.droppingDuplicates, .droppingDuplicates, .fileOpened .Family 2021,
        .joinCardinalityNotice]) := by
  refine ⟨?_, ?_, ?_⟩
  · intro st ps
    exact ⟨nodup_dedupF _, fun x => mem_dedupF x _⟩
  · intro st sts ps hdup
    unfold stageWarnings
    dsimp only
    rw [if_pos (dedupF_length_lt_of_not_nodup _ hdup)]
    exact List.mem_append_left _ (List.mem_cons_self _ _)
  · decide

/-- Witness for C3: the duplicated (1, 10) pair makes the stage emit the
join-cardinality notice. -/
theorem C3_witness :
    Event.joinCardinalityNotice ∈
      stageWarnings
        [⟨Context.Family, CodeSel.codes [301, 302],
          [⟨1, 10, 301⟩, ⟨1, 10, 302⟩]⟩] [(1, 1)] :=
  C3_duplicate_pairs_counted_once.2.1
    ⟨Context.Family, CodeSel.codes [301, 302],
      [⟨1, 10, 301⟩, ⟨1, 10, 302⟩]⟩ [] [(1, 1)] (by decide)

end NetCBS
